import Mathlib

/-!
Shallow embedding of the boilerplate-detection and corpus-assembly pipeline of
`src/cc_pseudo_crawl/pseudo_crawl_seed_to_lm_dset.py`.

Python strings are modelled as `List Char` (`PyStr`); Python dicts used as
sets or as default-0 counters are modelled as Lean functions; the emitted
jsonl stream is modelled as the list of emitted records (serialization is a
bijection on records and irrelevant to the properties below).
-/

/-- A Python string, as its list of characters. -/
abbrev PyStr := List Char

/-- The newline character on which `str.split("\n")` splits. -/
def nl : Char := '\n'

/-- The characters removed by Python `str.strip()` (the ASCII whitespace
characters; the pipeline's claims only depend on this set containing the
newline, space and tab). -/
def isSpace (c : Char) : Bool :=
  c = ' ' || c = '\t' || c = '\n' || c = '\r' || c = '\x0b' || c = '\x0c'

/-- Python `s.lstrip()`. -/
def lstrip (s : PyStr) : PyStr := s.dropWhile isSpace

/-- Python `s.rstrip()`. -/
def rstrip (s : PyStr) : PyStr := (s.reverse.dropWhile isSpace).reverse

/-- Python `s.strip()`. -/
def strip (s : PyStr) : PyStr := rstrip (lstrip s)

/-- Python `s.lower()` (ASCII case folding). -/
def pyLower (s : PyStr) : PyStr := s.map Char.toLower

/-- Python `s.split("\n")` (`List.splitOn nl` unfolded to its defining
predicate form). On the empty string it returns `[[]]`, as in Python. -/
def splitNl (s : PyStr) : List PyStr := s.splitOnP (fun c => c == nl)

/-- Python `"\n".join(ls)`. -/
def joinNl : List PyStr → PyStr
  | [] => []
  | [l] => l
  | l :: rest => l ++ nl :: joinNl rest

/-- A Python value of the shapes occurring in a feature description: dicts
with string keys, lists, strings, ints, and `None` (the `id` fields of the
source description are `None`).  Nested dicts are flattened into an inline
field list so that all recursion below is structural. -/
inductive PyVal where
  | dict (entries : List (String × PyVal))
  | arr (items : List PyVal)
  | str (s : String)
  | int (n : Int)
  | none
deriving Repr

/-- Python `d[k]` on the modelled dict (keys are unique, first match). -/
def lookupKey (entries : List (String × PyVal)) (k : String) : Option PyVal :=
  match entries with
  | [] => Option.none
  | (k', v) :: rest => if k' = k then Option.some v else lookupKey rest k

/-- The attribute names of the `datasets` module that denote feature
constructors callable as `getattr(datasets, tag)(dtype)`; `getattr` raises
`AttributeError` for any other tag.  The source's description (lines 17-58)
only ever uses `"Value"`. -/
def datasetsFeatureTags : List String :=
  ["Value", "ClassLabel", "Sequence", "Translation", "Array2D", "Array3D",
   "Array4D", "Array5D"]

/-- The exceptions `convert_types` can raise: `getattr` on an unknown
attribute, `getattr` on a non-string name, and a missing `"dtype"` key. -/
inductive SchemaError where
  | attributeError (tag : String)
  | typeError
  | keyError (k : String)
deriving DecidableEq, Repr

/-- The value space of resolved schemas: a constructed feature object
(`getattr(datasets, tag)(dtype)`), a dict of schemas, a list of schemas —
or Python `None`, which the source returns for any input that is neither a
dict nor a list (the function body has no `else` branch). -/
inductive Schema where
  | leaf (tag : String) (dtype : PyVal)
  | dict (entries : List (String × Schema))
  | arr (items : List Schema)
  | none
deriving Repr

mutual
/-- `convert_types` (lines 61-67).  A dict containing the key `"_type"` is a
leaf: `getattr(datasets, features["_type"])(features["dtype"])`, which raises
for an unrecognized or non-string tag, or a missing `"dtype"`.  Any other
dict maps `convert_types` over its values and a list maps it over its items,
the first exception propagating.  Every other shape falls through both
`isinstance` tests and the function silently returns `None`. -/
def convert_types : PyVal → Except SchemaError Schema
  | .dict entries =>
    match lookupKey entries "_type" with
    | Option.some (.str tag) =>
      if datasetsFeatureTags.contains tag then
        match lookupKey entries "dtype" with
        | Option.some d => .ok (.leaf tag d)
        | Option.none => .error (.keyError "dtype")
      else .error (.attributeError tag)
    | Option.some _ => .error .typeError
    | Option.none =>
      match convertFields entries with
      | .ok fs => .ok (.dict fs)
      | .error e => .error e
  | .arr items =>
    match convertItems items with
    | .ok xs => .ok (.arr xs)
    | .error e => .error e
  | .str _ => .ok .none
  | .int _ => .ok .none
  | .none => .ok .none

/-- The dict comprehension `{key: convert_types(value) … }` of line 65. -/
def convertFields : List (String × PyVal) → Except SchemaError (List (String × Schema))
  | [] => .ok []
  | (k, v) :: rest =>
    match convert_types v with
    | .ok s =>
      match convertFields rest with
      | .ok fs => .ok ((k, s) :: fs)
      | .error e => .error e
    | .error e => .error e

/-- The list comprehension `[convert_types(value) … ]` of line 67. -/
def convertItems : List PyVal → Except SchemaError (List Schema)
  | [] => .ok []
  | v :: rest =>
    match convert_types v with
    | .ok s =>
      match convertItems rest with
      | .ok xs => .ok (s :: xs)
      | .error e => .error e
    | .error e => .error e
end

mutual
/-- A description node contains an unrecognized leaf type tag when, along
the path `convert_types` actually traverses, some dict has a string
`"_type"` that is not an attribute of `datasets`. -/
def hasBadLeaf : PyVal → Bool
  | .dict entries =>
    match lookupKey entries "_type" with
    | Option.some (.str tag) => !(datasetsFeatureTags.contains tag)
    | Option.some _ => false
    | Option.none => fieldsHaveBadLeaf entries
  | .arr items => itemsHaveBadLeaf items
  | .str _ => false
  | .int _ => false
  | .none => false

def fieldsHaveBadLeaf : List (String × PyVal) → Bool
  | [] => false
  | (_, v) :: rest => hasBadLeaf v || fieldsHaveBadLeaf rest

def itemsHaveBadLeaf : List PyVal → Bool
  | [] => false
  | v :: rest => hasBadLeaf v || itemsHaveBadLeaf rest
end

/-- A description node of a shape the recursion does not recognize: neither
a dict (keyed) nor a list (sequenced). -/
def isIncompatibleShape : PyVal → Bool
  | .dict _ => false
  | .arr _ => false
  | _ => true

/-- One crawled page record, restricted to the fields the pipeline core
reads (`url`, `content_languages`, `seed_id`, `text`); the remaining crawl
metadata fields are never consulted by the functions embedded here. -/
structure Page where
  url : PyStr
  content_languages : PyStr
  seed_id : Int
  text : PyStr
deriving DecidableEq, Repr

/-- The metadata projection kept by `get_meta_dict`. -/
structure Meta where
  url : PyStr
  content_languages : PyStr
  seed_id : Int
deriving DecidableEq, Repr

/-- A processed record `{meta, text}` as built by `process_page`. -/
structure Processed where
  meta : Meta
  text : PyStr
deriving DecidableEq, Repr

/-- `get_meta_dict` (line 80): extract just the metadata we wish to keep. -/
def get_meta_dict (page : Page) : Meta :=
  { url := page.url, content_languages := page.content_languages, seed_id := page.seed_id }

/-- `filter_lines` (lines 85-94): strip each line of the article, route each
line into the `keep` or `skip` accumulator according to
`skip_dict.get(line, False)` (a Python dict with default `False`, modelled
as a function `PyStr → Bool`), and return both joined and stripped. -/
def filter_lines (article : PyStr) (skip_dict : PyStr → Bool) : PyStr × PyStr :=
  let lines := (splitNl article).map strip
  let acc := lines.foldl
    (fun (acc : List PyStr × List PyStr) line =>
      if skip_dict line then (acc.1, acc.2 ++ [line]) else (acc.1 ++ [line], acc.2))
    ([], [])
  (strip (joinNl acc.1), strip (joinNl acc.2))

/-- `process_page` (lines 98-104): metadata projection plus kept text. -/
def process_page (page : Page) (skip_dict : PyStr → Bool) : Processed :=
  { meta := get_meta_dict page, text := (filter_lines page.text skip_dict).1 }

/-- One pointwise increment of the Python counter dict
`line_counts[k] = line_counts.get(k, 0) + 1` (line 118). -/
def bump (cs : PyStr → Nat) (k : PyStr) : PyStr → Nat :=
  fun l => if l = k then cs k + 1 else cs l

/-- The body of the sampling loop of `get_lines_to_skip` (lines 113-118): if
the article's full text was already seen, the record contributes nothing;
otherwise it is marked seen and each of its lines increments the counter of
its stripped form.  The state is `(line_counts, seen_pages)`, with the
`seen_pages` dict-used-as-set modelled by the list of its keys. -/
def detect_step (st : (PyStr → Nat) × List PyStr) (article : PyStr) : (PyStr → Nat) × List PyStr :=
  if st.2.contains article then st
  else ((splitNl article).foldl (fun cs line => bump cs (strip line)) st.1, article :: st.2)

/-- The counting-and-threshold core of `get_lines_to_skip` (lines 110-120),
applied to the texts of the sampled pages.  The returned Python dict
`{line: True for line, ct in line_counts.items() if ct > thres_skip}` is read
through `.get(line, False)`, so it is the function mapping `line` to whether
its count strictly exceeds `max(10, len(seen_pages) // 100)` (a count `> 10`
is positive, so such a line is always among the dict's items). -/
def get_lines_to_skip_core (texts : List PyStr) : PyStr → Bool :=
  let st := texts.foldl detect_step (fun _ => 0, [])
  let thres_skip := max 10 (st.2.length / 100)
  fun line => decide (thres_skip < st.1 line)

/-- The sample size hard-coded in `dset["train"].select(range(10000))`
(line 112). -/
def sample_cap : Nat := 10000

/-- `get_lines_to_skip` (lines 109-120).  `select(range(10000))` raises an
`IndexError` when the train split has fewer than 10000 rows; the raised
exception is modelled as `none`. -/
def get_lines_to_skip (pages : List Page) : Option (PyStr → Bool) :=
  if sample_cap ≤ pages.length then
    some (get_lines_to_skip_core ((pages.take sample_cap).map Page.text))
  else none

/-- The body of the writer loop of `make_seed_jsonl` (lines 134-138).  The
state is `(emitted records, duplicated)`: the record is emitted when its
processed text is longer than `min_chars` and its normalization is not a key
of `duplicated` — and, exactly as in the source, nothing is ever added to
`duplicated`, which therefore stays as initialized. -/
def writer_step (skip_lines_dict : PyStr → Bool) (min_chars : Nat)
    (st : List Processed × List PyStr) (article : Page) : List Processed × List PyStr :=
  let processed_dct := process_page article skip_lines_dict
  let txt := pyLower (strip processed_dct.text)
  if min_chars < processed_dct.text.length ∧ txt ∉ st.2 then
    (st.1 ++ [processed_dct], st.2)
  else st

/-- `make_seed_jsonl` (lines 124-140), modelled as the list of records
written to the artifact, in the order they are written (`duplicated = {}` on
line 133 is the initial second state component). -/
def make_seed_jsonl (pages : List Page) (skip_lines_dict : PyStr → Bool)
    (min_chars : Nat) : List Processed :=
  (pages.foldl (writer_step skip_lines_dict min_chars) ([], [])).1

/-!  Spec-side descriptions (from the natural-language spec, to be compared
with the source-translated functions above).  -/

/-- Spec §4.3: the kept text is the stripped lines of the article with
exactly the suppressed lines removed, kept in order, joined and stripped. -/
def keptTextSpec (article : PyStr) (skip_dict : PyStr → Bool) : PyStr :=
  strip (joinNl (((splitNl article).map strip).filter (fun line => !skip_dict line)))

/-- The first occurrence of each distinct text of the sample, in sample
order, relative to a set of texts already seen. -/
def firstOccsAux (seen : List PyStr) : List PyStr → List PyStr
  | [] => []
  | a :: rest =>
    if seen.contains a then firstOccsAux seen rest
    else a :: firstOccsAux (a :: seen) rest

/-- The distinct texts of the sample, each at its first occurrence. -/
def firstOccs (texts : List PyStr) : List PyStr := firstOccsAux [] texts

/-- The number of lines of `article` whose stripped form is `l`. -/
def lineOccs (article : PyStr) (l : PyStr) : Nat := ((splitNl article).map strip).count l

/-- Spec §3 (Line Frequency Table): occurrences of the normalized line `l`
summed over the distinct page texts only. -/
def lineOccsInDistinct (texts : List PyStr) (l : PyStr) : Nat :=
  ((firstOccs texts).map (fun a => lineOccs a l)).sum

/-- The lines before the first nonempty line (auxiliary for reasoning about
the final `strip` of a joined text). -/
def dropEmptyLeft (ls : List PyStr) : List PyStr := ls.dropWhile List.isEmpty

/-- Dual on the right end. -/
def dropEmptyRight (ls : List PyStr) : List PyStr :=
  (ls.reverse.dropWhile List.isEmpty).reverse

/-- Lines with the empty runs at both ends removed. -/
def trimEmpty (ls : List PyStr) : List PyStr := dropEmptyRight (dropEmptyLeft ls)


/-!  Concrete inputs used by witnesses and counterexamples.  -/

def pageA : Page :=
  { url := "http://a.example/1".data
    content_languages := "en".data
    seed_id := 7
    text := "Hello World, a first page".data }

def pageB : Page :=
  { url := "http://b.example/2".data
    content_languages := "pt".data
    seed_id := 8
    text := "Another page body".data }

/-!  Theorems.  -/

/-- C1: the artifact produced by `make_seed_jsonl` is claimed to contain no
two distinct records with equal normalized texts, each emitted normalization
being added to the emitted set.  On the code, `duplicated` is initialized on
line 133 but nothing is ever inserted into it, so feeding the writer the
same page twice emits two records with identical normalized texts. -/
theorem writer_emits_duplicate_normalized_texts :
    make_seed_jsonl [pageA, pageA] (fun _ => false) 1 =
      [process_page pageA (fun _ => false), process_page pageA (fun _ => false)] ∧
    pyLower (strip (process_page pageA (fun _ => false)).text) =
      pyLower (strip (process_page pageA (fun _ => false)).text) := by
  exact ⟨by decide, rfl⟩

/-- C2: the detector is claimed to sample `min(sample_cap, |pages|)` records
and return a skip set without failing.  The code runs
`dset["train"].select(range(10000))`, which raises an `IndexError` (modelled
as `none`) whenever the train split has fewer than 10000 records — here, a
500-record input yields no skip set at all. -/
theorem detector_fails_on_small_input :
    get_lines_to_skip (List.replicate 500 pageA) = Option.none := by
  norm_num [get_lines_to_skip, sample_cap]

/-- C3 counterexample: `convert_types` is claimed to fail with a
`SchemaError` on every description node of an incompatible shape (neither a
recognized leaf, nor a map, nor a sequence).  On the string node `"oops"`
both `isinstance` tests fail and the function silently returns `None`
instead of raising. -/
theorem convert_types_silent_on_scalar :
    isIncompatibleShape (.str "oops") = true ∧
      convert_types (.str "oops") = .ok .none :=
  ⟨rfl, rfl⟩

/-- C8 counterexample: among records sharing a normalized text, the first
occurrence in input order is claimed to be the one emitted.  Feeding the
writer the same page twice emits both occurrences (the `duplicated` dict is
never populated), not only the first. -/
theorem writer_emits_second_occurrence :
    make_seed_jsonl [pageB, pageB] (fun _ => false) 2 =
      [process_page pageB (fun _ => false), process_page pageB (fun _ => false)] := by
  decide

/-!  Strip algebra.  -/

theorem lstrip_idem (s : PyStr) : lstrip (lstrip s) = lstrip s := by
  induction s with
  | nil => rfl
  | cons c t ih =>
    by_cases h : isSpace c
    · simpa [lstrip, h] using ih
    · simp [lstrip, h]

theorem rstrip_eq (s : PyStr) : rstrip s = (lstrip s.reverse).reverse := rfl

theorem rstrip_idem (s : PyStr) : rstrip (rstrip s) = rstrip s := by
  simp [rstrip_eq, lstrip_idem]

theorem isSpace_head_eq_false {c : Char} {t : PyStr} (h : lstrip (c :: t) = c :: t) :
    isSpace c = false := by
  have h2 := List.head?_dropWhile_not isSpace (c :: t)
  rw [show (c :: t).dropWhile isSpace = c :: t from h] at h2
  simpa using h2

theorem lstrip_rstrip {s : PyStr} (h : lstrip s = s) : lstrip (rstrip s) = rstrip s := by
  cases s with
  | nil => rfl
  | cons c t =>
    have hc : isSpace c = false := isSpace_head_eq_false h
    have hr : rstrip (c :: t) = c :: (lstrip t.reverse).reverse := by
      rw [rstrip_eq, List.reverse_cons]
      unfold lstrip
      rw [List.dropWhile_append]
      by_cases he : (t.reverse.dropWhile isSpace).isEmpty
      · rw [if_pos he]
        simp only [List.isEmpty_iff] at he
        simp [List.dropWhile_cons, hc, he]
      · rw [if_neg (by simpa using he)]
        simp
    rw [hr]
    simp [lstrip, List.dropWhile_cons, hc]

theorem lstrip_strip (s : PyStr) : lstrip (strip s) = strip s :=
  lstrip_rstrip (lstrip_idem s)

theorem rstrip_strip (s : PyStr) : rstrip (strip s) = strip s := by
  simp [strip, rstrip_idem]

theorem strip_idem (s : PyStr) : strip (strip s) = strip s := by
  conv_lhs => rw [strip, lstrip_strip]
  exact rstrip_strip s

/-- C9: the text of every Processed Record is already stripped (it is built
by a final `strip`), so the writer's length check on `processed.text`
coincides with the length of the stripped text. -/
theorem processed_text_is_stripped (page : Page) (skip_dict : PyStr → Bool) :
    strip (process_page page skip_dict).text = (process_page page skip_dict).text ∧
      (strip (process_page page skip_dict).text).length =
        (process_page page skip_dict).text.length := by
  have h1 : strip (process_page page skip_dict).text = (process_page page skip_dict).text := by
    simp only [process_page, filter_lines]
    exact strip_idem _
  exact ⟨h1, by rw [h1]⟩

theorem filter_foldl_partition (skip_dict : PyStr → Bool) (lines : List PyStr)
    (k s : List PyStr) :
    lines.foldl
        (fun (acc : List PyStr × List PyStr) line =>
          if skip_dict line then (acc.1, acc.2 ++ [line]) else (acc.1 ++ [line], acc.2))
        (k, s) =
      (k ++ lines.filter (fun l => !skip_dict l), s ++ lines.filter skip_dict) := by
  induction lines generalizing k s with
  | nil => simp
  | cons a lines ih =>
    by_cases h : skip_dict a
    · simp [h, ih, List.filter_cons]
    · simp [h, ih, List.filter_cons]

/-- C6: `process_page` returns exactly the record described by the spec —
the stripped lines of `page.text` with the suppressed lines removed and the
rest kept in order, joined and stripped, next to the unchanged metadata
projection `{url, content_languages, seed_id}`. -/
theorem process_page_eq_spec (page : Page) (skip_dict : PyStr → Bool) :
    process_page page skip_dict =
      { meta := { url := page.url, content_languages := page.content_languages,
                  seed_id := page.seed_id }
        text := keptTextSpec page.text skip_dict } := by
  simp only [process_page, get_meta_dict, filter_lines, keptTextSpec, filter_foldl_partition,
    List.nil_append]

/-!  Detector counting.  -/

theorem foldl_bump_count (lines : List PyStr) (cs : PyStr → Nat) (l : PyStr) :
    (lines.foldl (fun cs line => bump cs (strip line)) cs) l =
      cs l + (lines.map strip).count l := by
  induction lines generalizing cs with
  | nil => simp
  | cons a lines ih =>
    rw [List.foldl_cons, ih, List.map_cons, List.count_cons]
    by_cases h : l = strip a
    · simp only [bump, h, if_pos rfl, beq_self_eq_true, if_pos]
      omega
    · have h2 : ¬ (strip a == l) = true := by
        simp only [beq_iff_eq]
        exact fun he => h he.symm
      simp [bump, h, h2]

theorem detect_foldl (texts : List PyStr) (cs : PyStr → Nat) (seen : List PyStr) (l : PyStr) :
    (texts.foldl detect_step (cs, seen)).1 l =
        cs l + ((firstOccsAux seen texts).map (fun a => lineOccs a l)).sum ∧
      (texts.foldl detect_step (cs, seen)).2.length =
        seen.length + (firstOccsAux seen texts).length := by
  induction texts generalizing cs seen with
  | nil => simp [firstOccsAux]
  | cons a texts ih =>
    by_cases h : seen.contains a
    · rw [List.foldl_cons]
      have hm : a ∈ seen := by simpa using h
      have hstep : detect_step (cs, seen) a = (cs, seen) := by
        simp [detect_step, hm]
      have hfo : firstOccsAux seen (a :: texts) = firstOccsAux seen texts := by
        simp only [firstOccsAux]
        rw [if_pos h]
      rw [hstep, hfo]
      exact ih cs seen
    · rw [List.foldl_cons]
      have hm : a ∉ seen := by simpa using h
      have hstep : detect_step (cs, seen) a =
          ((splitNl a).foldl (fun cs line => bump cs (strip line)) cs, a :: seen) := by
        simp [detect_step, hm]
      have hfo : firstOccsAux seen (a :: texts) = a :: firstOccsAux (a :: seen) texts := by
        simp only [firstOccsAux]
        rw [if_neg h]
      rw [hstep, hfo]
      have ih2 := ih ((splitNl a).foldl (fun cs line => bump cs (strip line)) cs) (a :: seen)
      refine ⟨?_, ?_⟩
      · rw [ih2.1, foldl_bump_count, List.map_cons, List.sum_cons]
        simp only [lineOccs]
        omega
      · rw [ih2.2]
        simp only [List.length_cons]
        omega

/-- C5: a sampled page whose full raw text was already seen contributes no
counts: the count accumulated for each normalized line by the sampling loop
of `get_lines_to_skip` equals that line's occurrences summed over the
distinct page texts only. -/
theorem line_counts_sum_over_distinct_pages (texts : List PyStr) (l : PyStr) :
    (texts.foldl detect_step (fun _ => 0, [])).1 l = lineOccsInDistinct texts l := by
  have h := (detect_foldl texts (fun _ => 0) [] l).1
  simpa [lineOccsInDistinct, firstOccs] using h

/-- C4: the skip set maps a normalized line to `true` exactly when its count
over the distinct sampled texts strictly exceeds
`max(10, unique_count // 100)`, where `unique_count` is the number of
distinct page texts seen; every other line is absent (`false`). -/
theorem skip_set_iff_count_exceeds_threshold (texts : List PyStr) (line : PyStr) :
    get_lines_to_skip_core texts line = true ↔
      max 10 ((firstOccs texts).length / 100) < lineOccsInDistinct texts line := by
  have h1 := (detect_foldl texts (fun _ => 0) [] line).1
  have h2 := (detect_foldl texts (fun _ => 0) [] line).2
  simp only [get_lines_to_skip_core, decide_eq_true_eq]
  rw [h1, h2]
  simp [firstOccs, lineOccsInDistinct]

/-!  Writer invariants.  -/

theorem writer_foldl_mem (skip_lines_dict : PyStr → Bool) (min_chars : Nat)
    (pages : List Page) (st : List Processed × List PyStr) (r : Processed)
    (h : r ∈ (pages.foldl (writer_step skip_lines_dict min_chars) st).1) :
    r ∈ st.1 ∨ min_chars < r.text.length := by
  induction pages generalizing st with
  | nil => exact Or.inl h
  | cons p pages ih =>
    rw [List.foldl_cons] at h
    rcases ih _ h with h' | h'
    · unfold writer_step at h'
      by_cases hc : min_chars < (process_page p skip_lines_dict).text.length ∧
          pyLower (strip (process_page p skip_lines_dict).text) ∉ st.2
      · rw [if_pos hc] at h'
        rcases List.mem_append.mp h' with h'' | h''
        · exact Or.inl h''
        · right
          rw [List.mem_singleton.mp h'']
          exact hc.1
      · rw [if_neg hc] at h'
        exact Or.inl h'
    · exact Or.inr h'

/-- C7: every record emitted by `make_seed_jsonl` has a processed text whose
length strictly exceeds `min_chars` (the check is on `processed.text`, the
original-case stripped text, which the code indeed uses on line 137). -/
theorem emitted_text_exceeds_min_chars (pages : List Page) (skip_lines_dict : PyStr → Bool)
    (min_chars : Nat) (r : Processed)
    (h : r ∈ make_seed_jsonl pages skip_lines_dict min_chars) :
    min_chars < r.text.length := by
  rcases writer_foldl_mem skip_lines_dict min_chars pages ([], []) r h with h' | h'
  · exact absurd h' (List.not_mem_nil r)
  · exact h'

/-- Witness for C7 at a concrete input. -/
theorem emitted_text_exceeds_min_chars_witness :
    1 < (process_page pageA (fun _ => false)).text.length :=
  emitted_text_exceeds_min_chars [pageA] (fun _ => false) 1
    (process_page pageA (fun _ => false)) (by decide)

theorem writer_foldl_sublist (skip_lines_dict : PyStr → Bool) (min_chars : Nat)
    (pages : List Page) (acc : List Processed) (dup : List PyStr) :
    ∃ extra, (pages.foldl (writer_step skip_lines_dict min_chars) (acc, dup)).1 = acc ++ extra ∧
      extra.Sublist (pages.map (fun p => process_page p skip_lines_dict)) := by
  induction pages generalizing acc dup with
  | nil => exact ⟨[], by simp, by simp⟩
  | cons p pages ih =>
    rw [List.foldl_cons]
    by_cases hc : min_chars < (process_page p skip_lines_dict).text.length ∧
        pyLower (strip (process_page p skip_lines_dict).text) ∉ dup
    · have hstep : writer_step skip_lines_dict min_chars (acc, dup) p =
          (acc ++ [process_page p skip_lines_dict], dup) := by
        simp only [writer_step]
        rw [if_pos hc]
      rw [hstep]
      obtain ⟨extra, he, hs⟩ := ih (acc ++ [process_page p skip_lines_dict]) dup
      refine ⟨process_page p skip_lines_dict :: extra, ?_, ?_⟩
      · rw [he, List.append_assoc]
        rfl
      · rw [List.map_cons]
        exact List.Sublist.cons₂ _ hs
    · have hstep : writer_step skip_lines_dict min_chars (acc, dup) p = (acc, dup) := by
        simp only [writer_step]
        rw [if_neg hc]
      rw [hstep]
      obtain ⟨extra, he, hs⟩ := ih acc dup
      refine ⟨extra, he, ?_⟩
      rw [List.map_cons]
      exact List.Sublist.cons _ hs

/-- C8 (amended): the emitted sequence is a subsequence, in input order, of
the processed input sequence — the writer is a stable filter that never
reorders records. -/
theorem emitted_is_sublist_of_processed (pages : List Page) (skip_lines_dict : PyStr → Bool)
    (min_chars : Nat) :
    (make_seed_jsonl pages skip_lines_dict min_chars).Sublist
      (pages.map (fun p => process_page p skip_lines_dict)) := by
  obtain ⟨extra, he, hs⟩ := writer_foldl_sublist skip_lines_dict min_chars pages [] []
  unfold make_seed_jsonl
  rw [he, List.nil_append]
  exact hs

/-!  Schema resolution error propagation.  -/

mutual
theorem convert_err_of_badLeaf : (d : PyVal) → hasBadLeaf d = true →
    (convert_types d).isOk = false
  | .dict entries, h => by
    simp only [hasBadLeaf] at h
    cases hk : lookupKey entries "_type" with
    | none =>
      rw [hk] at h
      have h2 : fieldsHaveBadLeaf entries = true := h
      have h3 := fields_err_of_badLeaf entries h2
      cases hcf : convertFields entries with
      | ok fs =>
        rw [hcf] at h3
        exact absurd h3 (by simp [Except.isOk, Except.toBool])
      | error e => simp [convert_types, hk, hcf, Except.isOk, Except.toBool]
    | some v =>
      rw [hk] at h
      cases v with
      | str tag =>
        have hb : datasetsFeatureTags.contains tag = false := by
          have h2 : (!datasetsFeatureTags.contains tag) = true := h
          simpa using h2
        have hb2 : tag ∉ datasetsFeatureTags := by simpa using hb
        simp [convert_types, hk, hb2, Except.isOk, Except.toBool]
      | dict es => exact Bool.noConfusion (h : false = true)
      | arr xs => exact Bool.noConfusion (h : false = true)
      | int n => exact Bool.noConfusion (h : false = true)
      | none => exact Bool.noConfusion (h : false = true)
  | .arr items, h => by
    simp only [hasBadLeaf] at h
    have h3 := items_err_of_badLeaf items h
    cases hci : convertItems items with
    | ok xs =>
      rw [hci] at h3
      exact absurd h3 (by simp [Except.isOk, Except.toBool])
    | error e => simp [convert_types, hci, Except.isOk, Except.toBool]
  | .str s, h => Bool.noConfusion (h : false = true)
  | .int n, h => Bool.noConfusion (h : false = true)
  | .none, h => Bool.noConfusion (h : false = true)

theorem fields_err_of_badLeaf : (l : List (String × PyVal)) → fieldsHaveBadLeaf l = true →
    (convertFields l).isOk = false
  | [], h => Bool.noConfusion (h : false = true)
  | (k, v) :: rest, h => by
    have h2 : (hasBadLeaf v || fieldsHaveBadLeaf rest) = true := h
    rw [Bool.or_eq_true] at h2
    cases hcv : convert_types v with
    | error e => simp [convertFields, hcv, Except.isOk, Except.toBool]
    | ok s =>
      rcases h2 with hv | hr
      · have h3 := convert_err_of_badLeaf v hv
        rw [hcv] at h3
        exact absurd h3 (by simp [Except.isOk, Except.toBool])
      · have h3 := fields_err_of_badLeaf rest hr
        cases hcr : convertFields rest with
        | ok fs =>
          rw [hcr] at h3
          exact absurd h3 (by simp [Except.isOk, Except.toBool])
        | error e => simp [convertFields, hcv, hcr, Except.isOk, Except.toBool]

theorem items_err_of_badLeaf : (l : List PyVal) → itemsHaveBadLeaf l = true →
    (convertItems l).isOk = false
  | [], h => Bool.noConfusion (h : false = true)
  | v :: rest, h => by
    have h2 : (hasBadLeaf v || itemsHaveBadLeaf rest) = true := h
    rw [Bool.or_eq_true] at h2
    cases hcv : convert_types v with
    | error e => simp [convertItems, hcv, Except.isOk, Except.toBool]
    | ok s =>
      rcases h2 with hv | hr
      · have h3 := convert_err_of_badLeaf v hv
        rw [hcv] at h3
        exact absurd h3 (by simp [Except.isOk, Except.toBool])
      · have h3 := items_err_of_badLeaf rest hr
        cases hcr : convertItems rest with
        | ok xs =>
          rw [hcr] at h3
          exact absurd h3 (by simp [Except.isOk, Except.toBool])
        | error e => simp [convertItems, hcv, hcr, Except.isOk, Except.toBool]
end

/-- C3 (amended): resolution fails (the `getattr` exception, modelled as a
returned `SchemaError`) for every description containing an unrecognized
leaf type tag along the traversed structure; but on a node of incompatible
shape (neither dict nor list) it does not fail — it silently returns
`None`. -/
theorem convert_types_fails_on_unrecognized_tag :
    (∀ d : PyVal, hasBadLeaf d = true → (convert_types d).isOk = false) ∧
      (∀ v : PyVal, isIncompatibleShape v = true → convert_types v = .ok .none) := by
  refine ⟨convert_err_of_badLeaf, ?_⟩
  intro v hv
  cases v
  case dict es => exact Bool.noConfusion (hv : false = true)
  case arr xs => exact Bool.noConfusion (hv : false = true)
  all_goals rfl

/-- Witness for C3 at concrete inputs: a description with the unknown tag
`"Bogus"` errors, and an integer node resolves silently to `None`. -/
theorem convert_types_fails_on_unrecognized_tag_witness :
    (convert_types (.dict [("_type", .str "Bogus"), ("dtype", .str "x")])).isOk = false ∧
      convert_types (.int 5) = .ok .none := by
  refine ⟨convert_types_fails_on_unrecognized_tag.1 _ ?_,
    convert_types_fails_on_unrecognized_tag.2 _ ?_⟩ <;> rfl

/-!  Split/join round trips.  -/

theorem mem_splitOnP_pred {p : Char → Bool} :
    ∀ {xs : PyStr} {l : PyStr}, l ∈ xs.splitOnP p → ∀ c ∈ l, p c = false := by
  intro xs
  induction xs with
  | nil =>
    intro l hl c hc
    rw [List.splitOnP_nil] at hl
    rw [List.mem_singleton.mp hl] at hc
    exact absurd hc (List.not_mem_nil c)
  | cons x xs ih =>
    intro l hl c hc
    rw [List.splitOnP_cons] at hl
    by_cases hx : p x
    · rw [if_pos hx] at hl
      rcases List.mem_cons.mp hl with h1 | h1
      · rw [h1] at hc
        exact absurd hc (List.not_mem_nil c)
      · exact ih h1 c hc
    · rw [if_neg hx] at hl
      cases hsp : xs.splitOnP p with
      | nil => exact absurd hsp (List.splitOnP_ne_nil p xs)
      | cons hd tl =>
        rw [hsp] at hl
        rcases List.mem_cons.mp hl with h1 | h1
        · rw [h1] at hc
          rcases List.mem_cons.mp hc with h2 | h2
          · rw [h2]
            exact Bool.not_eq_true _ ▸ hx
          · exact ih (hsp ▸ List.mem_cons_self hd tl) c h2
        · exact ih (hsp ▸ List.mem_cons_of_mem hd h1) c hc

theorem nl_not_mem_of_mem_splitNl {s l : PyStr} (h : l ∈ splitNl s) : nl ∉ l := by
  intro hmem
  have := mem_splitOnP_pred h nl hmem
  simp at this

theorem joinNl_cons_cons (a b : PyStr) (t : List PyStr) :
    joinNl (a :: b :: t) = a ++ nl :: joinNl (b :: t) := rfl

theorem splitNl_joinNl :
    ∀ (ls : List PyStr), (∀ l ∈ ls, nl ∉ l) → ls ≠ [] → splitNl (joinNl ls) = ls
  | [], _, hne => absurd rfl hne
  | [l], h, _ => by
    have hl := h l (List.mem_singleton_self l)
    show (joinNl [l]).splitOnP (fun c => c == nl) = [l]
    have : joinNl [l] = l := rfl
    rw [this]
    refine List.splitOnP_eq_single _ _ ?_
    intro c hc hp
    rw [beq_iff_eq] at hp
    exact hl (hp ▸ hc)
  | l :: r :: t, h, _ => by
    have hl := h l (List.mem_cons_self l (r :: t))
    rw [joinNl_cons_cons]
    show (l ++ nl :: joinNl (r :: t)).splitOnP (fun c => c == nl) = l :: r :: t
    rw [List.splitOnP_first (fun c => c == nl) l
      (fun x hx hp => hl (by rw [beq_iff_eq] at hp ; exact hp ▸ hx))
      nl (by simp) (joinNl (r :: t))]
    have ih := splitNl_joinNl (r :: t) (fun x hx => h x (List.mem_cons_of_mem l hx))
      (List.cons_ne_nil r t)
    rw [show (joinNl (r :: t)).splitOnP (fun c => c == nl) = splitNl (joinNl (r :: t)) from rfl,
      ih]

/-!  Joining stripped lines.  -/

theorem lstrip_of_strip_eq {l : PyStr} (h : strip l = l) : lstrip l = l := by
  conv_lhs => rw [← h]
  rw [lstrip_strip]
  exact h

theorem rstrip_of_strip_eq {l : PyStr} (h : strip l = l) : rstrip l = l := by
  conv_lhs => rw [← h]
  rw [rstrip_strip]
  exact h

theorem lstrip_sublist (s : PyStr) : (lstrip s).Sublist s := List.dropWhile_sublist isSpace

theorem rstrip_sublist (s : PyStr) : (rstrip s).Sublist s := by
  have h := (List.dropWhile_sublist isSpace :
      (s.reverse.dropWhile isSpace).Sublist s.reverse).reverse
  rwa [List.reverse_reverse] at h

theorem strip_sublist (s : PyStr) : (strip s).Sublist s :=
  (rstrip_sublist (lstrip s)).trans (lstrip_sublist s)

theorem dropEmptyRight_sublist (ls : List PyStr) : (dropEmptyRight ls).Sublist ls := by
  have h := (List.dropWhile_sublist List.isEmpty :
      (ls.reverse.dropWhile List.isEmpty).Sublist ls.reverse).reverse
  rwa [List.reverse_reverse] at h

theorem trimEmpty_sublist (ls : List PyStr) : (trimEmpty ls).Sublist ls :=
  (dropEmptyRight_sublist (dropEmptyLeft ls)).trans (List.dropWhile_sublist List.isEmpty)

theorem isSpace_nl : isSpace nl = true := rfl

theorem lstrip_joinNl :
    ∀ (ls : List PyStr), (∀ l ∈ ls, lstrip l = l) →
      lstrip (joinNl ls) = joinNl (dropEmptyLeft ls)
  | [], _ => rfl
  | [l], h => by
    cases l with
    | nil => rfl
    | cons c t =>
      have hc : isSpace c = false := isSpace_head_eq_false (h (c :: t) (List.mem_singleton_self _))
      show lstrip (c :: t) = joinNl (dropEmptyLeft [c :: t])
      have hd : dropEmptyLeft [c :: t] = [c :: t] := rfl
      rw [hd]
      show lstrip (c :: t) = c :: t
      simp [lstrip, List.dropWhile_cons, hc]
  | l :: r :: t, h => by
    have ih := lstrip_joinNl (r :: t) (fun x hx => h x (List.mem_cons_of_mem l hx))
    cases l with
    | nil =>
      rw [joinNl_cons_cons]
      have h1 : lstrip ([] ++ nl :: joinNl (r :: t)) = lstrip (joinNl (r :: t)) := by
        simp [lstrip, List.dropWhile_cons, isSpace_nl]
      have h2 : dropEmptyLeft ([] :: r :: t) = dropEmptyLeft (r :: t) := rfl
      rw [h1, h2, ih]
    | cons c t' =>
      have hc : isSpace c = false :=
        isSpace_head_eq_false (h (c :: t') (List.mem_cons_self _ _))
      rw [joinNl_cons_cons]
      have h2 : dropEmptyLeft ((c :: t') :: r :: t) = (c :: t') :: r :: t := rfl
      rw [h2, joinNl_cons_cons]
      show lstrip (c :: (t' ++ nl :: joinNl (r :: t))) = (c :: t') ++ nl :: joinNl (r :: t)
      simp [lstrip, List.dropWhile_cons, hc]

theorem joinNl_append_singleton :
    ∀ (xs : List PyStr) (y : PyStr), xs ≠ [] → joinNl (xs ++ [y]) = joinNl xs ++ nl :: y
  | [], _, hne => absurd rfl hne
  | [x], _, _ => rfl
  | x :: r :: rest, y, _ => by
    have ih := joinNl_append_singleton (r :: rest) y (List.cons_ne_nil r rest)
    show joinNl (x :: ((r :: rest) ++ [y])) = joinNl (x :: r :: rest) ++ nl :: y
    have h1 : joinNl (x :: ((r :: rest) ++ [y])) = x ++ nl :: joinNl ((r :: rest) ++ [y]) := rfl
    rw [h1, ih, joinNl_cons_cons]
    simp [List.append_assoc]

theorem joinNl_reverse :
    ∀ (ls : List PyStr), (joinNl ls).reverse = joinNl ((ls.map List.reverse).reverse)
  | [] => rfl
  | [l] => rfl
  | l :: r :: t => by
    have ih := joinNl_reverse (r :: t)
    rw [joinNl_cons_cons, List.reverse_append, List.reverse_cons, ih]
    have hmap : (List.map List.reverse (l :: r :: t)).reverse
        = (List.map List.reverse (r :: t)).reverse ++ [l.reverse] := by
      simp
    rw [hmap, joinNl_append_singleton _ _ (by simp)]
    simp [List.append_assoc]

theorem rstrip_joinNl (ls : List PyStr) (h : ∀ l ∈ ls, rstrip l = l) :
    rstrip (joinNl ls) = joinNl (dropEmptyRight ls) := by
  rw [rstrip_eq, joinNl_reverse ls]
  have hmem : ∀ l' ∈ (ls.map List.reverse).reverse, lstrip l' = l' := by
    intro l' hl'
    rw [List.mem_reverse] at hl'
    obtain ⟨l, hl, rfl⟩ := List.mem_map.mp hl'
    have hx := h l hl
    rw [rstrip_eq] at hx
    have h2 := congrArg List.reverse hx
    rwa [List.reverse_reverse] at h2
  rw [lstrip_joinNl _ hmem]
  have hD : dropEmptyLeft ((ls.map List.reverse).reverse)
      = (dropEmptyLeft ls.reverse).map List.reverse := by
    unfold dropEmptyLeft
    rw [← List.map_reverse, List.dropWhile_map]
    have hfun : (List.isEmpty ∘ List.reverse : PyStr → Bool) = List.isEmpty := by
      funext x
      cases x <;> simp
    rw [hfun]
  rw [hD, joinNl_reverse]
  have hW : ((dropEmptyLeft ls.reverse).map List.reverse).map List.reverse
      = dropEmptyLeft ls.reverse := by
    simp
  rw [hW]
  rfl

theorem strip_joinNl (ls : List PyStr) (h : ∀ l ∈ ls, strip l = l) :
    strip (joinNl ls) = joinNl (trimEmpty ls) := by
  show rstrip (lstrip (joinNl ls)) = joinNl (trimEmpty ls)
  rw [lstrip_joinNl ls (fun l hl => lstrip_of_strip_eq (h l hl))]
  rw [rstrip_joinNl (dropEmptyLeft ls)
    (fun l hl => rstrip_of_strip_eq (h l ((List.dropWhile_sublist List.isEmpty).subset hl)))]
  rfl

theorem filter_lines_fst (article : PyStr) (skip_dict : PyStr → Bool) :
    (filter_lines article skip_dict).1 =
      strip (joinNl (((splitNl article).map strip).filter (fun l => !skip_dict l))) := by
  simp only [filter_lines, filter_foldl_partition, List.nil_append]

/-- C10: boilerplate stripping is idempotent — running `filter_lines` on the
kept text it already produced returns that same kept text. -/
theorem filter_lines_idempotent (article : PyStr) (skip_dict : PyStr → Bool) :
    (filter_lines ((filter_lines article skip_dict).1) skip_dict).1 =
      (filter_lines article skip_dict).1 := by
  have key : ∀ keep : List PyStr, (∀ l ∈ keep, strip l = l) → (∀ l ∈ keep, nl ∉ l) →
      (∀ l ∈ keep, skip_dict l = false) →
      (filter_lines (strip (joinNl keep)) skip_dict).1 = strip (joinNl keep) := by
    intro keep hstr hnl hsk
    rw [strip_joinNl keep hstr]
    by_cases hte : trimEmpty keep = []
    · rw [hte]
      show (filter_lines [] skip_dict).1 = []
      rw [filter_lines_fst]
      show strip (joinNl (([([] : PyStr)].map strip).filter (fun l => !skip_dict l))) = []
      by_cases hs0 : skip_dict []
      · simp [List.filter_cons, hs0, joinNl, strip, lstrip, rstrip]
      · simp [List.filter_cons, hs0, joinNl, strip, lstrip, rstrip]
    · have hsubset := (trimEmpty_sublist keep).subset
      rw [filter_lines_fst]
      have hsplit : splitNl (joinNl (trimEmpty keep)) = trimEmpty keep :=
        splitNl_joinNl (trimEmpty keep) (fun l hl => hnl l (hsubset hl)) hte
      rw [hsplit]
      have hmapstrip : (trimEmpty keep).map strip = trimEmpty keep := by
        have h1 : (trimEmpty keep).map strip = (trimEmpty keep).map id :=
          List.map_congr_left (fun l hl => hstr l (hsubset hl))
        rw [h1, List.map_id]
      rw [hmapstrip]
      have hfilter : (trimEmpty keep).filter (fun l => !skip_dict l) = trimEmpty keep :=
        List.filter_eq_self.mpr (fun l hl => by rw [hsk l (hsubset hl)]; rfl)
      rw [hfilter, ← strip_joinNl keep hstr, strip_idem, strip_joinNl keep hstr]
  rw [filter_lines_fst article skip_dict]
  refine key (((splitNl article).map strip).filter (fun l => !skip_dict l)) ?_ ?_ ?_
  · intro l hl
    obtain ⟨x, hx, rfl⟩ := List.mem_map.mp (List.mem_of_mem_filter hl)
    exact strip_idem x
  · intro l hl
    obtain ⟨x, hx, rfl⟩ := List.mem_map.mp (List.mem_of_mem_filter hl)
    exact fun hmem => nl_not_mem_of_mem_splitNl hx ((strip_sublist x).subset hmem)
  · intro l hl
    have hp := List.of_mem_filter hl
    simpa using hp
